import Mathlib

/-!
Verification of the directed-graph analysis module (`graph_processor.py`).

The Python code is shallowly embedded as executable Lean definitions:

* `Graph` mirrors the `Graph` class: `adjacency` is the insertion-ordered
  association list behind the `defaultdict(list)` (key presence is
  observable, which matters because `defaultdict` auto-creates keys on
  read), and `nodes` is the node set kept as an insertion-ordered
  duplicate-free list.
* Python floats are modelled as exact rationals (`ℚ`); the claims settled
  here are algebraic identities that are independent of rounding.
* `is_dag`'s recursive DFS is embedded as a mutual well-founded recursion
  whose termination measure is the number of unvisited nodes; the result
  additionally carries the Boolean flag telling whether the defensive
  `neighbor not in state` branch ever fired, and the proof that the
  measure does not increase (needed for termination only).
-/

namespace GraphProc

/-- First-match lookup in an association list, as Python dict lookup. -/
def lookA {α : Type} : List (Int × α) → Int → Option α
  | [], _ => none
  | (k, v) :: rest, u => if k = u then some v else lookA rest u

/-- The `Graph` class: `self.adjacency` (a `defaultdict(list)`, kept as an
insertion-ordered association list) and `self.nodes` (a set, kept as an
insertion-ordered duplicate-free list). -/
structure Graph where
  adjacency : List (Int × List Int)
  nodes : List Int
deriving DecidableEq, Repr

/-- `Graph.__init__`: empty adjacency, empty node set. -/
def Graph.empty : Graph := ⟨[], []⟩

/-- `self.adjacency[source].append(target)`: append to the first entry with
the given key, or (defaultdict) create the entry at the end. -/
def adjAppend : List (Int × List Int) → Int → Int → List (Int × List Int)
  | [], s, t => [(s, [t])]
  | (k, l) :: rest, s, t =>
    if k = s then (k, l ++ [t]) :: rest else (k, l) :: adjAppend rest s t

/-- `set.add`: append if absent. -/
def insertNode (ns : List Int) (x : Int) : List Int :=
  if x ∈ ns then ns else ns ++ [x]

/-- `Graph.add_edge(source, target)`. -/
def add_edge (g : Graph) (source target : Int) : Graph :=
  ⟨adjAppend g.adjacency source target,
   insertNode (insertNode g.nodes source) target⟩

/-- A graph built by calling `add_edge` once per pair, in order, starting
from the empty graph (the only construction path in the source). -/
def buildGraph (es : List (Int × Int)) : Graph :=
  es.foldl (fun g e => add_edge g e.1 e.2) Graph.empty

/-- The value read by `self.adjacency[node]`: the stored list, or `[]` for
an absent key (the defaultdict default). -/
def adjListD (g : Graph) (u : Int) : List Int :=
  (lookA g.adjacency u).getD []

/-- `Graph.get_in_degree(node)`: scan all adjacency values and count
occurrences. -/
def get_in_degree (g : Graph) (v : Int) : Nat :=
  (g.adjacency.map (fun p => p.2.count v)).sum

/-- `Graph.get_out_degree(node)`: `len(self.adjacency[node])`. -/
def get_out_degree (g : Graph) (u : Int) : Nat :=
  (adjListD g u).length

/-- Python's `max` on a list (the `[]` default is never reached in the
guarded call sites of the source). -/
def pyMax {α : Type} [Max α] (dflt : α) : List α → α
  | [] => dflt
  | x :: xs => xs.foldl max x

/-- Python's `min` on a list (the `[]` default is never reached in the
guarded call sites of the source). -/
def pyMin {α : Type} [Min α] (dflt : α) : List α → α
  | [] => dflt
  | x :: xs => xs.foldl min x

/-- `Graph.get_max_in_degree()`. -/
def get_max_in_degree (g : Graph) : Nat :=
  if g.nodes = [] then 0 else pyMax 0 (g.nodes.map (get_in_degree g))

/-- `Graph.get_max_out_degree()`. -/
def get_max_out_degree (g : Graph) : Nat :=
  if g.nodes = [] then 0 else pyMax 0 (g.nodes.map (get_out_degree g))

/-- The keys of the adjacency mapping. -/
def keysOf (g : Graph) : List Int := g.adjacency.map Prod.fst

/-! ### Association-list lemmas -/

theorem lookA_adjAppend (al : List (Int × List Int)) (s t u : Int) :
    lookA (adjAppend al s t) u =
      if u = s then some ((lookA al s).getD [] ++ [t]) else lookA al u := by
  induction al with
  | nil =>
    by_cases h : u = s
    · subst h; simp [adjAppend, lookA]
    · simp only [adjAppend, lookA, if_neg h]
      rw [if_neg (fun hs => h hs.symm)]
  | cons p rest ih =>
    obtain ⟨k, l⟩ := p
    simp only [adjAppend]
    by_cases hk : k = s
    · subst hk
      by_cases hu : u = k
      · subst hu; simp [lookA]
      · simp only [lookA, if_neg hu]
        rw [if_neg (fun hs => hu hs.symm), if_neg (fun hs => hu hs.symm)]
    · simp only [if_neg hk, lookA]
      by_cases hu : k = u
      · subst hu
        simp [hk]
      · rw [if_neg hu, if_neg hu, ih]

theorem adjListD_add_edge (g : Graph) (s t u : Int) :
    adjListD (add_edge g s t) u =
      if u = s then adjListD g s ++ [t] else adjListD g u := by
  simp only [adjListD, add_edge, lookA_adjAppend]
  by_cases h : u = s <;> simp [h]

theorem get_out_degree_add_edge (g : Graph) (s t u : Int) :
    get_out_degree (add_edge g s t) u =
      get_out_degree g u + (if u = s then 1 else 0) := by
  simp only [get_out_degree, adjListD_add_edge]
  by_cases h : u = s <;> simp [h]

theorem count_sum_adjAppend (al : List (Int × List Int)) (s t v : Int) :
    ((adjAppend al s t).map (fun p => p.2.count v)).sum =
      (al.map (fun p => p.2.count v)).sum + (if v = t then 1 else 0) := by
  induction al with
  | nil =>
    by_cases h : v = t <;>
      simp [adjAppend, List.count_cons, List.count_nil, h]
  | cons p rest ih =>
    obtain ⟨k, l⟩ := p
    simp only [adjAppend]
    by_cases hk : k = s
    · subst hk
      by_cases h : v = t <;>
        simp [List.count_append, List.count_cons, h] <;> omega
    · simp only [if_neg hk, List.map_cons, List.sum_cons, ih]
      omega

theorem get_in_degree_add_edge (g : Graph) (s t v : Int) :
    get_in_degree (add_edge g s t) v =
      get_in_degree g v + (if v = t then 1 else 0) := by
  simp only [get_in_degree, add_edge]
  exact count_sum_adjAppend g.adjacency s t v

theorem mem_insertNode (ns : List Int) (x y : Int) :
    y ∈ insertNode ns x ↔ y ∈ ns ∨ y = x := by
  unfold insertNode
  by_cases h : x ∈ ns
  · simp only [if_pos h]
    constructor
    · exact Or.inl
    · rintro (hy | rfl) <;> [exact hy; exact h]
  · simp [if_neg h]

theorem mem_nodes_add_edge (g : Graph) (s t y : Int) :
    y ∈ (add_edge g s t).nodes ↔ y ∈ g.nodes ∨ y = s ∨ y = t := by
  simp only [add_edge, mem_insertNode]
  tauto

theorem nodes_mono_add_edge (g : Graph) (s t y : Int) (h : y ∈ g.nodes) :
    y ∈ (add_edge g s t).nodes := by
  rw [mem_nodes_add_edge]; exact Or.inl h

/-! ### Well-formedness of graphs built through `add_edge` -/

theorem lookA_eq_none_iff {α : Type} (al : List (Int × α)) (u : Int) :
    lookA al u = none ↔ u ∉ al.map Prod.fst := by
  induction al with
  | nil => simp [lookA]
  | cons p rest ih =>
    obtain ⟨k, v⟩ := p
    by_cases h : k = u
    · subst h; simp [lookA]
    · simp [lookA, h, ih, Ne.symm h]

theorem lookA_mem {α : Type} (al : List (Int × α)) (u : Int) (l : α)
    (h : lookA al u = some l) : (u, l) ∈ al := by
  induction al with
  | nil => simp [lookA] at h
  | cons p rest ih =>
    obtain ⟨k, v⟩ := p
    by_cases hk : k = u
    · subst hk
      rw [lookA, if_pos rfl] at h
      obtain rfl := Option.some.inj h
      exact List.mem_cons_self _ _
    · simp only [lookA, if_neg hk] at h
      exact List.mem_cons_of_mem _ (ih h)

theorem keysOf_adjAppend (al : List (Int × List Int)) (s t : Int) :
    (adjAppend al s t).map Prod.fst =
      if s ∈ al.map Prod.fst then al.map Prod.fst
      else al.map Prod.fst ++ [s] := by
  induction al with
  | nil => simp [adjAppend]
  | cons p rest ih =>
    obtain ⟨k, l⟩ := p
    simp only [adjAppend]
    by_cases hk : k = s
    · subst hk; simp
    · simp only [if_neg hk, List.map_cons, ih]
      by_cases hs : s ∈ rest.map Prod.fst
      · simp [hs, Ne.symm hk]
      · simp [hs, Ne.symm hk]

theorem insertNode_nodup (ns : List Int) (x : Int) (h : ns.Nodup) :
    (insertNode ns x).Nodup := by
  unfold insertNode
  by_cases hx : x ∈ ns
  · simpa [hx]
  · rw [if_neg hx, List.nodup_append]
    refine ⟨h, List.nodup_singleton x, ?_⟩
    intro a ha hax
    rw [List.mem_singleton] at hax
    subst hax
    exact hx ha

/-- The invariants every graph reachable through `add_edge` satisfies. -/
structure WF (g : Graph) : Prop where
  nodesNodup : g.nodes.Nodup
  keysNodup : (keysOf g).Nodup
  keys_sub : ∀ u ∈ keysOf g, u ∈ g.nodes
  targets_sub : ∀ u, ∀ x ∈ adjListD g u, x ∈ g.nodes

theorem WF_empty : WF Graph.empty := by
  refine ⟨List.nodup_nil, List.nodup_nil, ?_, ?_⟩
  · intro u hu; simp [keysOf, Graph.empty] at hu
  · intro u x hx; simp [adjListD, Graph.empty, lookA] at hx

theorem WF_add_edge {g : Graph} (h : WF g) (s t : Int) :
    WF (add_edge g s t) := by
  refine ⟨?_, ?_, ?_, ?_⟩
  · exact insertNode_nodup _ _ (insertNode_nodup _ _ h.nodesNodup)
  · show ((adjAppend g.adjacency s t).map Prod.fst).Nodup
    rw [keysOf_adjAppend]
    by_cases hs : s ∈ g.adjacency.map Prod.fst
    · simpa [hs] using h.keysNodup
    · rw [if_neg hs, List.nodup_append]
      refine ⟨h.keysNodup, List.nodup_singleton s, ?_⟩
      intro a ha hax
      rw [List.mem_singleton] at hax
      subst hax
      exact hs ha
  · intro u hu
    show u ∈ (add_edge g s t).nodes
    rw [mem_nodes_add_edge]
    have : u ∈ (adjAppend g.adjacency s t).map Prod.fst := hu
    rw [keysOf_adjAppend] at this
    by_cases hs : s ∈ g.adjacency.map Prod.fst
    · rw [if_pos hs] at this
      exact Or.inl (h.keys_sub u this)
    · rw [if_neg hs] at this
      rcases List.mem_append.mp this with hl | hr
      · exact Or.inl (h.keys_sub u hl)
      · simp only [List.mem_singleton] at hr
        exact Or.inr (Or.inl hr)
  · intro u x hx
    rw [adjListD_add_edge] at hx
    rw [mem_nodes_add_edge]
    by_cases hu : u = s
    · rw [if_pos hu] at hx
      rcases List.mem_append.mp hx with hl | hr
      · exact Or.inl (h.targets_sub s x hl)
      · simp only [List.mem_singleton] at hr
        exact Or.inr (Or.inr hr)
    · rw [if_neg hu] at hx
      exact Or.inl (h.targets_sub u x hx)

theorem WF_buildGraph (es : List (Int × Int)) : WF (buildGraph es) := by
  suffices h : ∀ g : Graph, WF g →
      WF (es.foldl (fun g e => add_edge g e.1 e.2) g) by
    exact h Graph.empty WF_empty
  induction es with
  | nil => intro g hg; exact hg
  | cons e rest ih =>
    intro g hg
    exact ih _ (WF_add_edge hg e.1 e.2)

/-! ### Characterization of graphs built from an edge list -/

theorem out_degree_buildGraph (es : List (Int × Int)) (u : Int) :
    get_out_degree (buildGraph es) u = (es.map Prod.fst).count u := by
  suffices h : ∀ g : Graph,
      get_out_degree (es.foldl (fun g e => add_edge g e.1 e.2) g) u =
        get_out_degree g u + (es.map Prod.fst).count u by
    have := h Graph.empty
    simpa [get_out_degree, adjListD, Graph.empty, lookA] using this
  induction es with
  | nil => intro g; simp
  | cons e rest ih =>
    intro g
    simp only [List.foldl_cons, List.map_cons, ih, get_out_degree_add_edge,
      List.count_cons]
    by_cases h : u = e.1
    · simp [h]; omega
    · have h' : ¬e.1 = u := fun hh => h hh.symm
      simp [h, h']

theorem in_degree_buildGraph (es : List (Int × Int)) (v : Int) :
    get_in_degree (buildGraph es) v = (es.map Prod.snd).count v := by
  suffices h : ∀ g : Graph,
      get_in_degree (es.foldl (fun g e => add_edge g e.1 e.2) g) v =
        get_in_degree g v + (es.map Prod.snd).count v by
    have := h Graph.empty
    simpa [get_in_degree, Graph.empty] using this
  induction es with
  | nil => intro g; simp
  | cons e rest ih =>
    intro g
    simp only [List.foldl_cons, List.map_cons, ih, get_in_degree_add_edge,
      List.count_cons]
    by_cases h : v = e.2
    · simp [h]; omega
    · have h' : ¬e.2 = v := fun hh => h hh.symm
      simp [h, h']

theorem mem_nodes_buildGraph (es : List (Int × Int)) (y : Int) :
    y ∈ (buildGraph es).nodes ↔ ∃ e ∈ es, y = e.1 ∨ y = e.2 := by
  suffices h : ∀ g : Graph,
      (y ∈ (es.foldl (fun g e => add_edge g e.1 e.2) g).nodes ↔
        y ∈ g.nodes ∨ ∃ e ∈ es, y = e.1 ∨ y = e.2) by
    have hb := h Graph.empty
    rw [buildGraph, hb]
    simp [Graph.empty]
  induction es with
  | nil => intro g; simp
  | cons e rest ih =>
    intro g
    rw [List.foldl_cons, ih, mem_nodes_add_edge]
    constructor
    · rintro ((hg | h1 | h2) | ⟨f, hf, hor⟩)
      · exact Or.inl hg
      · exact Or.inr ⟨e, List.mem_cons_self _ _, Or.inl h1⟩
      · exact Or.inr ⟨e, List.mem_cons_self _ _, Or.inr h2⟩
      · exact Or.inr ⟨f, List.mem_cons_of_mem _ hf, hor⟩
    · rintro (hg | ⟨f, hf, hor⟩)
      · exact Or.inl (Or.inl hg)
      · rcases List.mem_cons.mp hf with rfl | hf'
        · rcases hor with h1 | h2
          · exact Or.inl (Or.inr (Or.inl h1))
          · exact Or.inl (Or.inr (Or.inr h2))
        · exact Or.inr ⟨f, hf', hor⟩

theorem nodes_buildGraph_nil : (buildGraph []).nodes = [] := rfl

/-! ### Sum helpers -/

theorem sum_map_addf {α : Type} (l : List α) (f h : α → Nat) :
    (l.map (fun x => f x + h x)).sum = (l.map f).sum + (l.map h).sum := by
  induction l with
  | nil => simp
  | cons x xs ih => simp [ih]; omega

theorem sum_map_ite_single (l : List Int) (hn : l.Nodup) (s : Int)
    (hs : s ∈ l) (c : Nat) :
    (l.map (fun u => if u = s then c else 0)).sum = c := by
  induction l with
  | nil => cases hs
  | cons x xs ih =>
    rcases List.mem_cons.mp hs with h1 | hs'
    · subst h1
      have hx : s ∉ xs := (List.nodup_cons.mp hn).1
      have hz : (xs.map (fun u => if u = s then c else 0)).sum = 0 := by
        rw [List.sum_eq_zero]
        intro y hy
        simp only [List.mem_map] at hy
        obtain ⟨u, hu, rfl⟩ := hy
        rw [if_neg (fun h : u = s => hx (h ▸ hu))]
      simp [List.map_cons, List.sum_cons, hz]
    · have hxs : ¬x = s := by
        rintro rfl
        exact (List.nodup_cons.mp hn).1 hs'
      simp only [List.map_cons, List.sum_cons, if_neg hxs]
      rw [ih (List.nodup_cons.mp hn).2 hs']
      omega

theorem sum_map_insertNode (ns : List Int) (x : Int) (f : Int → Nat) :
    ((insertNode ns x).map f).sum =
      (ns.map f).sum + (if x ∈ ns then 0 else f x) := by
  unfold insertNode
  by_cases hx : x ∈ ns <;> simp [hx]

theorem adjListD_eq_nil_of_not_mem_nodes {g : Graph} (hWF : WF g) {u : Int}
    (hu : u ∉ g.nodes) : adjListD g u = [] := by
  have hk : u ∉ keysOf g := fun h => hu (hWF.keys_sub u h)
  have : lookA g.adjacency u = none := (lookA_eq_none_iff _ _).mpr hk
  simp [adjListD, this]

/-! ### Invariant: in-degree equals the sum of occurrence counts over nodes -/

theorem in_degree_sum_step {g : Graph} (hWF : WF g)
    (hP : ∀ v, get_in_degree g v =
      (g.nodes.map (fun u => (adjListD g u).count v)).sum)
    (s t : Int) : ∀ v, get_in_degree (add_edge g s t) v =
      ((add_edge g s t).nodes.map
        (fun u => (adjListD (add_edge g s t) u).count v)).sum := by
  intro v
  have hF : ∀ u, (adjListD (add_edge g s t) u).count v =
      (adjListD g u).count v +
        (if u = s then (if t = v then 1 else 0) else 0) := by
    intro u
    rw [adjListD_add_edge]
    by_cases hu : u = s
    · simp [hu, List.count_append, List.count_cons]
    · simp [hu]
  have hmap : ((add_edge g s t).nodes.map
      (fun u => (adjListD (add_edge g s t) u).count v)) =
      ((add_edge g s t).nodes.map
        (fun u => (adjListD g u).count v +
          (if u = s then (if t = v then 1 else 0) else 0))) := by
    exact List.map_congr_left (fun u _ => hF u)
  rw [hmap, sum_map_addf]
  have hnodes' : (add_edge g s t).nodes = insertNode (insertNode g.nodes s) t :=
    rfl
  have hnodup' : (add_edge g s t).nodes.Nodup := by
    rw [hnodes']
    exact insertNode_nodup _ _ (insertNode_nodup _ _ hWF.nodesNodup)
  have hsmem : s ∈ (add_edge g s t).nodes := by
    rw [mem_nodes_add_edge]
    exact Or.inr (Or.inl rfl)
  rw [sum_map_ite_single _ hnodup' s hsmem]
  have hflat : (((add_edge g s t).nodes.map
      (fun u => (adjListD g u).count v))).sum =
      ((g.nodes.map (fun u => (adjListD g u).count v))).sum := by
    rw [hnodes', sum_map_insertNode, sum_map_insertNode]
    by_cases hs : s ∈ g.nodes
    · simp only [if_pos hs, Nat.add_zero]
      by_cases ht : t ∈ insertNode g.nodes s
      · simp [ht]
      · have htn : t ∉ g.nodes := fun h => ht ((mem_insertNode _ _ _).mpr (Or.inl h))
        rw [if_neg ht, adjListD_eq_nil_of_not_mem_nodes hWF htn]
        simp
    · have hfs : adjListD g s = [] := adjListD_eq_nil_of_not_mem_nodes hWF hs
      simp only [if_neg hs, hfs]
      by_cases ht : t ∈ insertNode g.nodes s
      · simp [ht]
      · have htn : t ∉ g.nodes := fun h => ht ((mem_insertNode _ _ _).mpr (Or.inl h))
        rw [if_neg ht, adjListD_eq_nil_of_not_mem_nodes hWF htn]
        simp
  rw [hflat, ← hP v, get_in_degree_add_edge]
  by_cases h : v = t
  · simp [h]
  · rw [if_neg h, if_neg (fun hh : t = v => h hh.symm)]

theorem in_degree_sum_buildGraph (es : List (Int × Int)) (v : Int) :
    get_in_degree (buildGraph es) v =
      ((buildGraph es).nodes.map
        (fun u => (adjListD (buildGraph es) u).count v)).sum := by
  suffices h : ∀ g : Graph, WF g →
      (∀ w, get_in_degree g w =
        (g.nodes.map (fun u => (adjListD g u).count w)).sum) →
      ∀ w, get_in_degree (es.foldl (fun g e => add_edge g e.1 e.2) g) w =
        ((es.foldl (fun g e => add_edge g e.1 e.2) g).nodes.map
          (fun u => (adjListD (es.foldl (fun g e => add_edge g e.1 e.2) g) u).count w)).sum by
    refine h Graph.empty WF_empty ?_ v
    intro w
    simp [get_in_degree, Graph.empty]
  induction es with
  | nil => intro g _ hP w; exact hP w
  | cons e rest ih =>
    intro g hWF hP w
    exact ih (add_edge g e.1 e.2) (WF_add_edge hWF e.1 e.2)
      (in_degree_sum_step hWF hP e.1 e.2) w

/-! ### Max/min helpers for the Python `max`/`min` built-ins -/

theorem le_foldl_max {α : Type} [LinearOrder α] (l : List α) (a : α) :
    a ≤ l.foldl max a := by
  induction l generalizing a with
  | nil => exact le_refl a
  | cons x xs ih => exact le_trans (le_max_left a x) (ih (max a x))

theorem mem_le_foldl_max {α : Type} [LinearOrder α] (l : List α) (a x : α)
    (hx : x ∈ l) : x ≤ l.foldl max a := by
  induction l generalizing a with
  | nil => cases hx
  | cons y ys ih =>
    rcases List.mem_cons.mp hx with rfl | hx'
    · exact le_trans (le_max_right a x) (le_foldl_max ys (max a x))
    · exact ih (max a y) hx'

theorem le_pyMax {α : Type} [LinearOrder α] (d : α) (l : List α) (x : α)
    (hx : x ∈ l) : x ≤ pyMax d l := by
  cases l with
  | nil => cases hx
  | cons y ys =>
    rcases List.mem_cons.mp hx with rfl | hx'
    · exact le_foldl_max ys x
    · exact mem_le_foldl_max ys y x hx'

theorem foldl_max_self {α : Type} [LinearOrder α] (c : α) (m : Nat) :
    (List.replicate m c).foldl max c = c := by
  induction m with
  | zero => rfl
  | succ k ih => simpa [List.replicate_succ, max_self] using ih

theorem foldl_min_self {α : Type} [LinearOrder α] (c : α) (m : Nat) :
    (List.replicate m c).foldl min c = c := by
  induction m with
  | zero => rfl
  | succ k ih => simpa [List.replicate_succ, min_self] using ih

theorem pyMax_replicate {α : Type} [LinearOrder α] (d c : α) (n : Nat)
    (hn : 1 ≤ n) : pyMax d (List.replicate n c) = c := by
  cases n with
  | zero => omega
  | succ m => simpa [List.replicate_succ, pyMax] using foldl_max_self c m

theorem pyMin_replicate {α : Type} [LinearOrder α] (d c : α) (n : Nat)
    (hn : 1 ≤ n) : pyMin d (List.replicate n c) = c := by
  cases n with
  | zero => omega
  | succ m => simpa [List.replicate_succ, pyMin] using foldl_min_self c m

/-! ### PageRank (`compute_pagerank`), with floats modelled as exact rationals -/

/-- `node_to_idx[node]`: the enumeration index of a node in the node list. -/
def nodeIdx : List Int → Int → Nat
  | [], _ => 0
  | x :: xs, u => if x = u then 0 else nodeIdx xs u + 1

/-- Read `pagerank[i]` (the default is never reached: indices come from
`node_to_idx` over the same list). -/
def prGet (pr : List ℚ) (i : Nat) : ℚ := pr.getD i 0

/-- The sink set: nodes with `get_out_degree == 0`, in node order. -/
def sink_list (nodes : List Int) (adjF : Int → List Int) : List Int :=
  nodes.filter (fun u => (adjF u).length == 0)

/-- `sink_contribution`: the summed rank of all sinks divided by n (when
there are no sinks the sum is 0 and so is the code's contribution). -/
def sink_contribution (nodes : List Int) (adjF : Int → List Int)
    (pr : List ℚ) : ℚ :=
  ((sink_list nodes adjF).map (fun s => prGet pr (nodeIdx nodes s))).sum /
    (nodes.length : ℚ)

/-- The inner loop over `source_node in nodes`: add
`pagerank[source_idx] / out_degree` whenever `out_degree > 0 and
node in get_adjacency_list(source_node)` — note the membership test. -/
def link_sum (nodes : List Int) (adjF : Int → List Int) (pr : List ℚ)
    (v : Int) : ℚ :=
  (nodes.map (fun u =>
    if 0 < (adjF u).length ∧ v ∈ adjF u then
      prGet pr (nodeIdx nodes u) / ((adjF u).length : ℚ)
    else 0)).sum

/-- One PageRank iteration: `new_pagerank[node_idx] = (1 - d)/n + d * rank`. -/
def pr_step (nodes : List Int) (adjF : Int → List Int) (d : ℚ)
    (pr : List ℚ) : List ℚ :=
  nodes.map (fun v =>
    (1 - d) / (nodes.length : ℚ) +
      d * (sink_contribution nodes adjF pr + link_sum nodes adjF pr v))

/-- The iteration loop, starting from the uniform prior `1/n`. -/
def pr_iter (nodes : List Int) (adjF : Int → List Int) (d : ℚ) :
    Nat → List ℚ
  | 0 => List.replicate nodes.length (1 / (nodes.length : ℚ))
  | k + 1 => pr_step nodes adjF d (pr_iter nodes adjF d k)

/-- `compute_pagerank(graph, damping_factor, iterations)`. -/
def compute_pagerank (g : Graph) (damping : ℚ) (iterations : Nat) : ℚ × ℚ :=
  if g.nodes = [] then (0, 0)
  else
    (pyMax 0 (pr_iter g.nodes (adjListD g) damping iterations),
     pyMin 0 (pr_iter g.nodes (adjListD g) damping iterations))

/-- The link-following sum exactly as the specification words it (§4.4
step 4b): a node `u` with `m` parallel edges to `v` contributes
`old_rank(u)/out_degree(u)` once per parallel edge, i.e. `m` times.
Defined only to compare the code against the spec's formula. -/
def spec_link_sum (nodes : List Int) (adjF : Int → List Int) (pr : List ℚ)
    (v : Int) : ℚ :=
  (nodes.map (fun u =>
    ((adjF u).count v : ℚ) *
      (prGet pr (nodeIdx nodes u) / ((adjF u).length : ℚ)))).sum

/-- One iteration of the specification's rank update (spec §4.4 step 4). -/
def spec_pr_step (nodes : List Int) (adjF : Int → List Int) (d : ℚ)
    (pr : List ℚ) : List ℚ :=
  nodes.map (fun v =>
    (1 - d) / (nodes.length : ℚ) +
      d * (sink_contribution nodes adjF pr + spec_link_sum nodes adjF pr v))

/-- The specification's rank computation, same shell as the code's. -/
def spec_pr_iter (nodes : List Int) (adjF : Int → List Int) (d : ℚ) :
    Nat → List ℚ
  | 0 => List.replicate nodes.length (1 / (nodes.length : ℚ))
  | k + 1 => spec_pr_step nodes adjF d (spec_pr_iter nodes adjF d k)

/-- The specification's `compute_rank` output (max, min of final ranks). -/
def spec_compute_pagerank (g : Graph) (damping : ℚ) (iterations : Nat) :
    ℚ × ℚ :=
  if g.nodes = [] then (0, 0)
  else
    (pyMax 0 (spec_pr_iter g.nodes (adjListD g) damping iterations),
     pyMin 0 (spec_pr_iter g.nodes (adjListD g) damping iterations))

/-! ### Repeated edge insertion (for the degree-increment claim) -/

/-- `k` successive `add_edge(u, v)` calls. -/
def add_edge_k (g : Graph) (u v : Int) : Nat → Graph
  | 0 => g
  | k + 1 => add_edge (add_edge_k g u v k) u v

/-! ### Stateful views of the query operations

Python's `defaultdict` auto-creates a key on read: `self.adjacency[node]`
inserts `node ↦ []` when absent.  The pure functions above return the
value each query computes; the definitions below additionally return the
graph as it stands after the call, making the implicit mutation-on-read
observable. -/

/-- The state effect of one `self.adjacency[node]` read. -/
def touch (g : Graph) (u : Int) : Graph :=
  if lookA g.adjacency u = none then ⟨g.adjacency ++ [(u, [])], g.nodes⟩
  else g

/-- `get_out_degree` with its state effect. -/
def get_out_degree_st (g : Graph) (u : Int) : Nat × Graph :=
  ((adjListD g u).length, touch g u)

/-- `get_adjacency_list` with its state effect. -/
def get_adjacency_list_st (g : Graph) (u : Int) : List Int × Graph :=
  (adjListD g u, touch g u)

/-- `get_in_degree` iterates `self.adjacency.values()` — no defaultdict
read, so its state effect is the identity. -/
def get_in_degree_st (g : Graph) (v : Int) : Nat × Graph :=
  (get_in_degree g v, g)

/-- `get_max_in_degree` only calls `get_in_degree` — identity effect. -/
def get_max_in_degree_st (g : Graph) : Nat × Graph :=
  (get_max_in_degree g, g)

/-- The degree reads of `get_max_out_degree`, threading the defaultdict
state effect across the iteration over `self.nodes`. -/
def out_degrees_st : Graph → List Int → List Nat × Graph
  | g, [] => ([], g)
  | g, u :: us =>
    let d := get_out_degree_st g u
    let rest := out_degrees_st d.2 us
    (d.1 :: rest.1, rest.2)

/-- `get_max_out_degree` with its state effect. -/
def get_max_out_degree_st (g : Graph) : Nat × Graph :=
  if g.nodes = [] then (0, g)
  else (pyMax 0 (out_degrees_st g g.nodes).1, (out_degrees_st g g.nodes).2)

/-! ### The defaultdict touch preserves everything observable -/

theorem lookA_append {α : Type} (al bl : List (Int × α)) (u : Int) :
    lookA (al ++ bl) u =
      match lookA al u with
      | some v => some v
      | none => lookA bl u := by
  induction al with
  | nil => simp [lookA]
  | cons p rest ih =>
    obtain ⟨k, v⟩ := p
    by_cases hk : k = u
    · simp [lookA, hk]
    · simp [lookA, hk, ih]

theorem touch_nodes (g : Graph) (u : Int) : (touch g u).nodes = g.nodes := by
  unfold touch
  by_cases h : lookA g.adjacency u = none <;> simp [h]

theorem adjListD_touch (g : Graph) (u w : Int) :
    adjListD (touch g u) w = adjListD g w := by
  unfold touch
  by_cases h : lookA g.adjacency u = none
  · rw [if_pos h]
    show (lookA (g.adjacency ++ [(u, [])]) w).getD [] = adjListD g w
    rw [lookA_append]
    cases hw : lookA g.adjacency w with
    | some l => simp [adjListD, hw]
    | none =>
      simp only [adjListD, hw, lookA]
      by_cases huw : u = w <;> simp [huw]
  · rw [if_neg h]

theorem compute_pagerank_touch (g : Graph) (u : Int) (d : ℚ) (it : Nat) :
    compute_pagerank (touch g u) d it = compute_pagerank g d it := by
  have h1 : (touch g u).nodes = g.nodes := touch_nodes g u
  have h2 : adjListD (touch g u) = adjListD g := funext (adjListD_touch g u)
  unfold compute_pagerank
  rw [h1, h2]

/-- Claim C4: for every graph and node `v`, `get_in_degree(v)` equals the
sum over all nodes `u` of the number of occurrences of `v` in `u`'s
outgoing adjacency sequence. -/
theorem C4_in_degree_eq_sum_of_counts (es : List (Int × Int)) (v : Int) :
    get_in_degree (buildGraph es) v =
      ((buildGraph es).nodes.map
        (fun u => (adjListD (buildGraph es) u).count v)).sum :=
  in_degree_sum_buildGraph es v

/-- Claim C5: both maximum degrees are nonnegative, and they are both zero
exactly when the graph has no nodes. -/
theorem C5_max_degrees_zero_iff_no_nodes (es : List (Int × Int)) :
    0 ≤ get_max_in_degree (buildGraph es) ∧
    0 ≤ get_max_out_degree (buildGraph es) ∧
    ((get_max_in_degree (buildGraph es) = 0 ∧
      get_max_out_degree (buildGraph es) = 0) ↔
        (buildGraph es).nodes = []) := by
  refine ⟨Nat.zero_le _, Nat.zero_le _, ?_, ?_⟩
  · rintro ⟨_, h2⟩
    by_contra hne
    cases es with
    | nil => exact hne nodes_buildGraph_nil
    | cons e rest =>
      have he1 : e.1 ∈ (buildGraph (e :: rest)).nodes :=
        (mem_nodes_buildGraph _ _).mpr ⟨e, List.mem_cons_self _ _, Or.inl rfl⟩
      have hod : 1 ≤ get_out_degree (buildGraph (e :: rest)) e.1 := by
        rw [out_degree_buildGraph]
        have hm : e.1 ∈ (e :: rest).map Prod.fst :=
          List.mem_map_of_mem _ (List.mem_cons_self _ _)
        exact List.count_pos_iff.mpr hm
      have hmem : get_out_degree (buildGraph (e :: rest)) e.1 ∈
          ((buildGraph (e :: rest)).nodes.map
            (get_out_degree (buildGraph (e :: rest)))) :=
        List.mem_map_of_mem _ he1
      have hle := le_pyMax 0 _ _ hmem
      have hnodes : (buildGraph (e :: rest)).nodes ≠ [] :=
        List.ne_nil_of_mem he1
      rw [get_max_out_degree, if_neg hnodes] at h2
      omega
  · intro h
    constructor <;> simp [get_max_in_degree, get_max_out_degree, h]

/-- Claim C6: `k` parallel `add_edge(u, v)` calls increase `u`'s
out-degree by `k` and `v`'s in-degree by `k`. -/
theorem C6_parallel_edges_increment_degrees (es : List (Int × Int))
    (u v : Int) (k : Nat) (hk : 1 ≤ k) :
    get_out_degree (add_edge_k (buildGraph es) u v k) u =
      get_out_degree (buildGraph es) u + k ∧
    get_in_degree (add_edge_k (buildGraph es) u v k) v =
      get_in_degree (buildGraph es) v + k := by
  have h : ∀ m : Nat,
      get_out_degree (add_edge_k (buildGraph es) u v m) u =
        get_out_degree (buildGraph es) u + m ∧
      get_in_degree (add_edge_k (buildGraph es) u v m) v =
        get_in_degree (buildGraph es) v + m := by
    intro m
    induction m with
    | zero => simp [add_edge_k]
    | succ j ih =>
      refine ⟨?_, ?_⟩
      · simp [add_edge_k, get_out_degree_add_edge, ih.1]
        omega
      · simp [add_edge_k, get_in_degree_add_edge, ih.2]
        omega
  exact h k

/-- Witness for C6 at a concrete input. -/
theorem C6_witness : 1 ≤ 1 ∧
    (get_out_degree (add_edge_k (buildGraph []) 1 2 1) 1 =
      get_out_degree (buildGraph []) 1 + 1 ∧
    get_in_degree (add_edge_k (buildGraph []) 1 2 1) 2 =
      get_in_degree (buildGraph []) 2 + 1) :=
  ⟨by decide, C6_parallel_edges_increment_degrees [] 1 2 1 (by decide)⟩

/-- Claim C7: with `iterations = 0` on a non-empty graph the result is the
uniform prior's max and min, `(1/n, 1/n)`, whatever the damping factor. -/
theorem C7_zero_iterations_uniform (es : List (Int × Int)) (d : ℚ)
    (h : (buildGraph es).nodes ≠ []) :
    compute_pagerank (buildGraph es) d 0 =
      (1 / ((buildGraph es).nodes.length : ℚ),
       1 / ((buildGraph es).nodes.length : ℚ)) := by
  unfold compute_pagerank
  rw [if_neg h]
  unfold pr_iter
  have hn : 1 ≤ (buildGraph es).nodes.length := List.length_pos.mpr h
  rw [pyMax_replicate _ _ _ hn, pyMin_replicate _ _ _ hn]

/-- Witness for C7 at a concrete input. -/
theorem C7_witness : (buildGraph [((1:Int), (2:Int))]).nodes ≠ [] ∧
    compute_pagerank (buildGraph [((1:Int), (2:Int))]) (1/2) 0 =
      (1/2, 1/2) := by
  have hne : (buildGraph [((1:Int), (2:Int))]).nodes ≠ [] := by decide
  refine ⟨hne, ?_⟩
  have h := C7_zero_iterations_uniform [((1:Int), (2:Int))] (1/2) hne
  have hl : (buildGraph [((1:Int), (2:Int))]).nodes.length = 2 := by decide
  rw [h, hl]
  norm_num

/-- Claim C8: on the empty graph `compute_pagerank` returns `(0.0, 0.0)`
for every damping factor and iteration count. -/
theorem C8_empty_graph_zero (d : ℚ) (it : Nat) :
    compute_pagerank (buildGraph []) d it = (0, 0) := by
  unfold compute_pagerank
  have h : (buildGraph []).nodes = [] := rfl
  rw [if_pos h]

/-- Claim C1: the code evaluated at a graph with a parallel edge.  With
edges 1→2, 1→2, 1→3 (damping 1, one iteration) the code computes node 2's
rank from a membership test — `old_rank(1)/3` contributed once — giving
final ranks with maximum 1/3, while the claim's per-parallel-edge formula
(`spec_compute_pagerank`) contributes `old_rank(1)/3` twice and yields
maximum 4/9.  The two observable outputs differ. -/
theorem C1_parallel_edges_not_counted_per_edge :
    compute_pagerank (buildGraph [((1:Int), (2:Int)), (1, 2), (1, 3)]) 1 1 =
      (1/3, 2/9) ∧
    spec_compute_pagerank
        (buildGraph [((1:Int), (2:Int)), (1, 2), (1, 3)]) 1 1 =
      (4/9, 2/9) ∧
    ((1:ℚ)/3, (2:ℚ)/9) ≠ ((4:ℚ)/9, (2:ℚ)/9) := by
  have hg : buildGraph [((1:Int), (2:Int)), (1, 2), (1, 3)] =
      ⟨[(1, [2, 2, 3])], [1, 2, 3]⟩ := by decide
  have h30 : ((3:Nat) == 0) = false := rfl
  have h00 : ((0:Nat) == 0) = true := rfl
  refine ⟨?_, ?_, ?_⟩
  · rw [hg]
    norm_num [compute_pagerank, pr_iter, pr_step, link_sum,
      sink_contribution, sink_list, nodeIdx, prGet, pyMax, pyMin, adjListD,
      lookA, List.filter, List.replicate, max_def, min_def, h30, h00,
      List.getElem?_cons_zero, List.getElem?_cons_succ, Option.getD_some]
    intro h
    exact absurd h (by decide)
  · rw [hg]
    norm_num [spec_compute_pagerank, spec_pr_iter, spec_pr_step,
      spec_link_sum, sink_contribution, sink_list, nodeIdx, prGet, pyMax,
      pyMin, adjListD, lookA, List.filter, List.replicate, max_def, min_def,
      h30, h00, List.getElem?_cons_zero, List.getElem?_cons_succ,
      Option.getD_some, List.count_cons, List.count_nil]
    intro h
    exact absurd h (by decide)
  · intro h
    have h1 := congrArg Prod.fst h
    norm_num at h1

/-- Claim C2 counterexample: `get_out_degree` queried at a node that was
never inserted extends the adjacency mapping with an empty entry
(defaultdict auto-creation on read), so the graph state is not unchanged. -/
theorem C2_counterexample_query_mutates_adjacency :
    (get_out_degree_st (buildGraph [((1:Int), (2:Int))]) 2).2.adjacency ≠
      (buildGraph [((1:Int), (2:Int))]).adjacency := by decide

theorem out_degrees_st_spec (l : List Int) : ∀ g : Graph,
    (out_degrees_st g l).1 = l.map (get_out_degree g) ∧
    (out_degrees_st g l).2.nodes = g.nodes ∧
    ∀ w, adjListD (out_degrees_st g l).2 w = adjListD g w := by
  induction l with
  | nil => intro g; exact ⟨rfl, rfl, fun w => rfl⟩
  | cons u us ih =>
    intro g
    obtain ⟨hv, hn, ha⟩ := ih (touch g u)
    have hout : ∀ w, get_out_degree (touch g u) w = get_out_degree g w := by
      intro w
      simp [get_out_degree, adjListD_touch]
    refine ⟨?_, ?_, ?_⟩
    · show get_out_degree g u ::
        (out_degrees_st (touch g u) us).1 = _
      rw [hv, List.map_cons]
      congr 1
      exact List.map_congr_left (fun w _ => hout w)
    · show (out_degrees_st (touch g u) us).2.nodes = g.nodes
      rw [hn, touch_nodes]
    · intro w
      show adjListD (out_degrees_st (touch g u) us).2 w = adjListD g w
      rw [ha w, adjListD_touch]

/-! ### Cycle detection (`is_dag`)

The `state` dict of `is_dag` is an insertion-ordered association list from
node to colour (0 unvisited, 1 visiting, 2 done).  The recursion of
`has_cycle_dfs` terminates because each recursive descent happens on a
node just recoloured from unvisited to visiting; the measure is the number
of unvisited nodes inside the finite universe `U` of all nodes the
traversal can ever touch. -/

/-- The DFS `state` dict. -/
abbrev St := List (Int × Nat)

/-- `state[node] = value`: replace the entry if present, else insert. -/
def stSet : St → Int → Nat → St
  | [], u, n => [(u, n)]
  | (k, v) :: rest, u, n =>
    if k = u then (k, n) :: rest else (k, v) :: stSet rest u n

/-- `state[node]` as the code reads it.  Every actual read in the source
is of a present key; an absent key reads as 0, exactly the value the
defensive branch would insert before any read. -/
def stLook (st : St) (u : Int) : Nat := (lookA st u).getD 0

/-- Unvisited test (state 0, or no entry yet). -/
def whiteB (st : St) (u : Int) : Bool :=
  !(stLook st u == 1 || stLook st u == 2)

/-- Number of unvisited nodes in the universe `U`: the termination
measure of the DFS. -/
def wcount (U : List Int) (st : St) : Nat := (U.filter (whiteB st)).length

theorem lookA_stSet (st : St) (k u : Int) (n : Nat) :
    lookA (stSet st k n) u = if u = k then some n else lookA st u := by
  induction st with
  | nil =>
    by_cases h : u = k
    · subst h; simp [stSet, lookA]
    · simp only [stSet, lookA, if_neg h]
      rw [if_neg (fun hs => h hs.symm)]
  | cons p rest ih =>
    obtain ⟨a, b⟩ := p
    simp only [stSet]
    by_cases ha : a = k
    · subst ha
      by_cases hu : u = a
      · subst hu; simp [lookA]
      · simp only [lookA, if_neg hu]
        rw [if_neg (fun hs => hu hs.symm), if_neg (fun hs => hu hs.symm)]
    · simp only [if_neg ha, lookA]
      by_cases hu : a = u
      · subst hu
        simp [ha]
      · rw [if_neg hu, if_neg hu, ih]

theorem stLook_stSet (st : St) (k u : Int) (n : Nat) :
    stLook (stSet st k n) u = if u = k then n else stLook st u := by
  simp only [stLook, lookA_stSet]
  by_cases h : u = k <;> simp [h]

theorem filter_length_le_of_imp (l : List Int) (p q : Int → Bool)
    (h : ∀ x, q x = true → p x = true) :
    (l.filter q).length ≤ (l.filter p).length := by
  induction l with
  | nil => simp
  | cons x xs ih =>
    by_cases hq : q x = true
    · simp [List.filter, hq, h x hq]
      omega
    · have hq' : q x = false := by
        cases hqx : q x
        · rfl
        · exact absurd hqx hq
      cases hp : p x <;> simp [List.filter, hq', hp] <;> omega

theorem filter_length_lt_of_imp (l : List Int) (p q : Int → Bool)
    (h : ∀ x, q x = true → p x = true) (x : Int) (hx : x ∈ l)
    (hp : p x = true) (hq : q x = false) :
    (l.filter q).length < (l.filter p).length := by
  induction l with
  | nil => cases hx
  | cons y ys ih =>
    rcases List.mem_cons.mp hx with h1 | hys
    · subst h1
      simp only [List.filter, hp, hq]
      have := filter_length_le_of_imp ys p q h
      simp
      omega
    · by_cases hqy : q y = true
      · simp [List.filter, hqy, h y hqy]
        exact ih hys
      · have hq' : q y = false := by
          cases hqq : q y
          · rfl
          · exact absurd hqq hqy
        cases hpy : p y <;> simp [List.filter, hq', hpy]
        · exact ih hys
        · have := ih hys
          omega

theorem whiteB_stSet (st : St) (k u : Int) (n : Nat) :
    whiteB (stSet st k n) u = if u = k then !(n == 1 || n == 2)
      else whiteB st u := by
  simp only [whiteB, stLook_stSet]
  by_cases h : u = k <;> simp [h]

theorem wcount_le_stSet2 (U : List Int) (st : St) (u : Int) :
    wcount U (stSet st u 2) ≤ wcount U st := by
  apply filter_length_le_of_imp
  intro x hx
  rw [whiteB_stSet] at hx
  by_cases h : x = u
  · rw [if_pos h] at hx; cases hx
  · rwa [if_neg h] at hx

theorem wcount_lt_stSet1 (U : List Int) (st : St) (u : Int) (hu : u ∈ U)
    (h1 : ¬stLook st u = 1) (h2 : ¬stLook st u = 2) :
    wcount U (stSet st u 1) < wcount U st := by
  apply filter_length_lt_of_imp _ _ _ _ u hu
  · simp only [whiteB]
    have e1 : (stLook st u == 1) = false := by
      cases h : stLook st u == 1
      · rfl
      · exact absurd (by simpa using h) h1
    have e2 : (stLook st u == 2) = false := by
      cases h : stLook st u == 2
      · rfl
      · exact absurd (by simpa using h) h2
    rw [e1, e2]
    rfl
  · rw [whiteB_stSet, if_pos rfl]
    rfl
  · intro x hx
    rw [whiteB_stSet] at hx
    by_cases h : x = u
    · rw [if_pos h] at hx; cases hx
    · rwa [if_neg h] at hx

theorem stLook_stSet0_absent (st : St) (u : Int)
    (h : lookA st u = none) (w : Int) :
    stLook (stSet st u 0) w = stLook st w := by
  rw [stLook_stSet]
  by_cases hw : w = u
  · subst hw
    simp [stLook, h]
  · rw [if_neg hw]

theorem wcount_stSet0_absent (U : List Int) (st : St) (u : Int)
    (h : lookA st u = none) :
    wcount U (stSet st u 0) = wcount U st := by
  unfold wcount
  congr 1
  apply List.filter_congr
  intro x _
  simp only [whiteB, stLook_stSet0_absent st u h]

/-- Result of one `has_cycle_dfs` call (or one run of its neighbour loop):
whether a cycle was found, whether the defensive `neighbor not in state`
branch ever executed, the state dict afterwards, and — for termination
only — the proof that the number of unvisited nodes did not grow. -/
structure DfsRes (U : List Int) (st : St) where
  found : Bool
  fired : Bool
  out : St
  bound : wcount U out ≤ wcount U st

mutual

/-- `has_cycle_dfs(node)` from `is_dag`: return `True` on a visiting
node (back edge), `False` on a done node; otherwise mark the node
visiting, walk its adjacency list, then mark it done. -/
def dfs (adjF : Int → List Int) (U : List Int)
    (hadj : ∀ u, ∀ x ∈ adjF u, x ∈ U) (st : St) (node : Int)
    (hn : node ∈ U) : DfsRes U st :=
  if h1 : stLook st node = 1 then ⟨true, false, st, Nat.le_refl _⟩
  else if h2 : stLook st node = 2 then ⟨false, false, st, Nat.le_refl _⟩
  else
    match dfsLoop adjF U hadj (stSet st node 1) (adjF node)
        (fun x hx => hadj node x hx) with
    | ⟨true, f, out, hb⟩ =>
      ⟨true, f, out,
        Nat.le_of_lt (Nat.lt_of_le_of_lt hb
          (wcount_lt_stSet1 U st node hn h1 h2))⟩
    | ⟨false, f, out, hb⟩ =>
      ⟨false, f, stSet out node 2,
        Nat.le_trans (wcount_le_stSet2 U out node)
          (Nat.le_of_lt (Nat.lt_of_le_of_lt hb
            (wcount_lt_stSet1 U st node hn h1 h2)))⟩
termination_by (wcount U st, 0, 0)
decreasing_by
  all_goals simp_wf
  exact Prod.Lex.left _ _ (wcount_lt_stSet1 U st node hn h1 h2)

/-- The `for neighbor in graph.get_adjacency_list(node)` loop of
`has_cycle_dfs`: insert a missing neighbour as unvisited (the defensive
branch — recorded in `fired`), recurse, and short-circuit on `True`. -/
def dfsLoop (adjF : Int → List Int) (U : List Int)
    (hadj : ∀ u, ∀ x ∈ adjF u, x ∈ U) (st : St) (l : List Int)
    (hl : ∀ x ∈ l, x ∈ U) : DfsRes U st :=
  match l with
  | [] => ⟨false, false, st, Nat.le_refl _⟩
  | nb :: rest =>
    if hnone : lookA st nb = none then
      match dfs adjF U hadj (stSet st nb 0) nb
          (hl nb (List.mem_cons_self _ _)) with
      | ⟨true, _, out1, hb1⟩ =>
        ⟨true, true, out1,
          Nat.le_trans hb1 (Nat.le_of_eq (wcount_stSet0_absent U st nb hnone))⟩
      | ⟨false, _, out1, hb1⟩ =>
        match dfsLoop adjF U hadj out1 rest
            (fun x hx => hl x (List.mem_cons_of_mem _ hx)) with
        | ⟨b2, _, out2, hb2⟩ =>
          ⟨b2, true, out2,
            Nat.le_trans hb2 (Nat.le_trans hb1
              (Nat.le_of_eq (wcount_stSet0_absent U st nb hnone)))⟩
    else
      match dfs adjF U hadj st nb (hl nb (List.mem_cons_self _ _)) with
      | ⟨true, f1, out1, hb1⟩ => ⟨true, f1, out1, hb1⟩
      | ⟨false, f1, out1, hb1⟩ =>
        match dfsLoop adjF U hadj out1 rest
            (fun x hx => hl x (List.mem_cons_of_mem _ hx)) with
        | ⟨b2, f2, out2, hb2⟩ =>
          ⟨b2, f1 || f2, out2, Nat.le_trans hb2 hb1⟩
termination_by (wcount U st, 1, l.length)
decreasing_by
  all_goals simp_wf
  · rw [wcount_stSet0_absent U st nb hnone]
    exact Prod.Lex.right _ (Prod.Lex.left _ _ (by omega))
  · have h0 := wcount_stSet0_absent U st nb hnone
    have hle : wcount U out1 ≤ wcount U st := h0 ▸ hb1
    rcases lt_or_eq_of_le hle with h | h
    · exact Prod.Lex.left _ _ h
    · rw [h]
      exact Prod.Lex.right _ (Prod.Lex.right _ (by simp))
  · exact Prod.Lex.right _ (Prod.Lex.left _ _ (by omega))
  · rcases lt_or_eq_of_le hb1 with h | h
    · exact Prod.Lex.left _ _ h
    · rw [h]
      exact Prod.Lex.right _ (Prod.Lex.right _ (by simp))

end

/-- The top-level loop of `is_dag`: for every node (in the given root
order) still unvisited, run `has_cycle_dfs`; return `False` as soon as a
cycle is found, together with the accumulated defensive-branch flag. -/
def isDagCore (adjF : Int → List Int) (U : List Int)
    (hadj : ∀ u, ∀ x ∈ adjF u, x ∈ U) :
    St → (roots : List Int) → (∀ r ∈ roots, r ∈ U) → Bool × Bool
  | _, [], _ => (true, false)
  | st, r :: rest, hr =>
    if stLook st r = 0 then
      match dfs adjF U hadj st r (hr r (List.mem_cons_self _ _)) with
      | ⟨true, f, _, _⟩ => (false, f)
      | ⟨false, f, out, _⟩ =>
        let p := isDagCore adjF U hadj out rest
          (fun x hx => hr x (List.mem_cons_of_mem _ hx))
        (p.1, f || p.2)
    else
      isDagCore adjF U hadj st rest
        (fun x hx => hr x (List.mem_cons_of_mem _ hx))

/-- The finite universe of nodes the DFS of `is_dag` can touch: the
graph's node set plus every target in any adjacency sequence. -/
def Ug (g : Graph) : List Int :=
  g.nodes ++ (g.adjacency.map Prod.snd).flatten

theorem adjListD_sub_Ug (g : Graph) : ∀ u, ∀ x ∈ adjListD g u, x ∈ Ug g := by
  intro u x hx
  unfold adjListD at hx
  cases hl : lookA g.adjacency u with
  | none => rw [hl] at hx; cases hx
  | some l =>
    rw [hl] at hx
    have hmem : (u, l) ∈ g.adjacency := lookA_mem _ _ _ hl
    have hsnd : l ∈ g.adjacency.map Prod.snd := List.mem_map_of_mem _ hmem
    exact List.mem_append_right _ (List.mem_flatten.mpr ⟨l, hsnd, hx⟩)

theorem nodes_sub_Ug (g : Graph) : ∀ r ∈ g.nodes, r ∈ Ug g :=
  fun _ hr => List.mem_append_left _ hr

/-- `state = {node: 0 for node in graph.get_nodes()}`. -/
def initSt (g : Graph) : St := g.nodes.map (fun u => (u, 0))

/-- `is_dag(graph)`. -/
def is_dag (g : Graph) : Bool :=
  (isDagCore (adjListD g) (Ug g) (adjListD_sub_Ug g) (initSt g) g.nodes
    (nodes_sub_Ug g)).1

/-- Whether the defensive `neighbor not in state` branch executed during
`is_dag(graph)`. -/
def is_dag_fired (g : Graph) : Bool :=
  (isDagCore (adjListD g) (Ug g) (adjListD_sub_Ug g) (initSt g) g.nodes
    (nodes_sub_Ug g)).2

/-- `is_dag` with an arbitrary iteration order of the node set. -/
def is_dag_roots (g : Graph) (roots : List Int)
    (hr : ∀ r ∈ roots, r ∈ Ug g) : Bool :=
  (isDagCore (adjListD g) (Ug g) (adjListD_sub_Ug g) (initSt g) roots hr).1

/-! ### Specifications of the DFS

`Inv` is the three-colour invariant: the successors of a done node are
done, and no done node lies on a cycle.  `DfsSpec`/`LoopSpec` bundle the
three facts the top-level proofs need: what a cycle-free return leaves
behind, that a cycle-found return exhibits a genuine cycle, and that with
a fully-seeded state dict the defensive branch never fires. -/

/-- Visiting nodes are exactly preserved. -/
def GrayPres (st st' : St) : Prop := ∀ u, stLook st' u = 1 ↔ stLook st u = 1

/-- Done nodes stay done. -/
def BlackMono (st st' : St) : Prop := ∀ u, stLook st u = 2 → stLook st' u = 2

/-- The DFS invariant over the adjacency function. -/
def Inv (adjF : Int → List Int) (st : St) : Prop :=
  (∀ u v, stLook st u = 2 → v ∈ adjF u → stLook st v = 2) ∧
  (∀ u, stLook st u = 2 →
    ¬ Relation.TransGen (fun a b => b ∈ adjF a) u u)

/-- Every node of `NL` has an entry in the state dict. -/
def DomAll (NL : List Int) (st : St) : Prop :=
  ∀ u ∈ NL, (lookA st u).isSome = true

/-- A DFS call leaves each node's colour unchanged or makes it done. -/
def Change2 (st st' : St) : Prop :=
  ∀ u, stLook st' u = stLook st u ∨ stLook st' u = 2

theorem Inv_congr (adjF : Int → List Int) (st st' : St)
    (h : ∀ u, stLook st' u = stLook st u) (hi : Inv adjF st) :
    Inv adjF st' := by
  constructor
  · intro u v hu hv
    rw [h]
    exact hi.1 u v (by rwa [h u] at hu) hv
  · intro u hu
    exact hi.2 u (by rwa [h u] at hu)

theorem black_reach (adjF : Int → List Int) (st : St)
    (hc : ∀ u v, stLook st u = 2 → v ∈ adjF u → stLook st v = 2)
    {u w : Int} (hu : stLook st u = 2)
    (hr : Relation.ReflTransGen (fun a b => b ∈ adjF a) u w) :
    stLook st w = 2 := by
  induction hr with
  | refl => exact hu
  | tail _ hbc ih => exact hc _ _ ih hbc

theorem Inv_stSet1 (adjF : Int → List Int) (st : St) (node : Int)
    (hi : Inv adjF st) (h2 : ¬stLook st node = 2) :
    Inv adjF (stSet st node 1) := by
  constructor
  · intro u v hu hv
    rw [stLook_stSet] at hu ⊢
    by_cases hun : u = node
    · rw [if_pos hun] at hu; cases hu
    · rw [if_neg hun] at hu
      by_cases hvn : v = node
      · exact absurd (hvn ▸ hi.1 u v hu hv) h2
      · rw [if_neg hvn]
        exact hi.1 u v hu hv
  · intro u hu
    rw [stLook_stSet] at hu
    by_cases hun : u = node
    · rw [if_pos hun] at hu; cases hu
    · rw [if_neg hun] at hu
      exact hi.2 u hu

theorem lookA_isSome_stSet (st : St) (k : Int) (n : Nat) (w : Int)
    (h : (lookA st w).isSome = true) :
    (lookA (stSet st k n) w).isSome = true := by
  rw [lookA_stSet]
  by_cases hw : w = k
  · rw [if_pos hw]; rfl
  · rwa [if_neg hw]

theorem DomAll_stSet (NL : List Int) (st : St) (k : Int) (n : Nat)
    (h : DomAll NL st) : DomAll NL (stSet st k n) :=
  fun u hu => lookA_isSome_stSet st k n u (h u hu)

/-- Everything the top-level loop needs from one `has_cycle_dfs` call. -/
def DfsSpec (adjF : Int → List Int) (U : List Int) (st : St) (node : Int)
    (r : DfsRes U st) : Prop :=
  (r.found = false → Inv adjF st →
    GrayPres st r.out ∧ BlackMono st r.out ∧ stLook r.out node = 2 ∧
      Change2 st r.out ∧ Inv adjF r.out) ∧
  (r.found = true → Inv adjF st →
    (∀ u, stLook st u = 1 →
      Relation.TransGen (fun a b => b ∈ adjF a) u node) →
    ∃ w, Relation.TransGen (fun a b => b ∈ adjF a) w w) ∧
  (∀ NL : List Int, (∀ u, ∀ x ∈ adjF u, x ∈ NL) → DomAll NL st →
    r.fired = false ∧ DomAll NL r.out)

/-- Everything needed from one run of the neighbour loop. -/
def LoopSpec (adjF : Int → List Int) (U : List Int) (st : St)
    (l : List Int) (r : DfsRes U st) : Prop :=
  (r.found = false → Inv adjF st →
    GrayPres st r.out ∧ BlackMono st r.out ∧
      (∀ nb ∈ l, stLook r.out nb = 2) ∧ Change2 st r.out ∧
      Inv adjF r.out) ∧
  (r.found = true → Inv adjF st →
    ∀ node, stLook st node = 1 → (∀ x ∈ l, x ∈ adjF node) →
    (∀ u, stLook st u = 1 →
      u = node ∨ Relation.TransGen (fun a b => b ∈ adjF a) u node) →
    ∃ w, Relation.TransGen (fun a b => b ∈ adjF a) w w) ∧
  (∀ NL : List Int, (∀ u, ∀ x ∈ adjF u, x ∈ NL) → (∀ x ∈ l, x ∈ NL) →
    DomAll NL st →
    r.fired = false ∧ DomAll NL r.out)

theorem dfs_cases_helper (adjF : Int → List Int) (U : List Int)
    (hadj : ∀ u, ∀ x ∈ adjF u, x ∈ U) (st : St) (node : Int)
    (hn : node ∈ U)
    (hloop : ¬stLook st node = 1 → ¬stLook st node = 2 →
      LoopSpec adjF U (stSet st node 1) (adjF node)
        (dfsLoop adjF U hadj (stSet st node 1) (adjF node)
          (fun x hx => hadj node x hx))) :
    DfsSpec adjF U st node (dfs adjF U hadj st node hn) := by
  by_cases h1 : stLook st node = 1
  · rw [dfs, dif_pos h1]
    refine ⟨?_, ?_, ?_⟩
    · intro hf
      exact absurd hf (by simp)
    · intro _ _ hgr
      exact ⟨node, hgr node h1⟩
    · intro NL _ hdom
      exact ⟨rfl, hdom⟩
  · by_cases h2 : stLook st node = 2
    · rw [dfs, dif_neg h1, dif_pos h2]
      refine ⟨?_, ?_, ?_⟩
      · intro _ hInv
        exact ⟨fun u => Iff.rfl, fun u h => h, h2, fun u => Or.inl rfl, hInv⟩
      · intro hf
        exact absurd hf (by simp)
      · intro NL _ hdom
        exact ⟨rfl, hdom⟩
    · rw [dfs, dif_neg h1, dif_neg h2]
      have hloop2 := hloop h1 h2
      rcases hres : dfsLoop adjF U hadj (stSet st node 1) (adjF node)
          (fun x hx => hadj node x hx) with ⟨found, fired, out, hb⟩
      rw [hres] at hloop2
      cases found
      · -- loop finished without a cycle: node is marked done
        simp only [hres]
        refine ⟨?_, ?_, ?_⟩
        · intro _ hInv
          have hInv1 : Inv adjF (stSet st node 1) :=
            Inv_stSet1 adjF st node hInv h2
          obtain ⟨hgray, hblack, htargets, hch, hInvOut⟩ :=
            hloop2.1 rfl hInv1
          have hg1 : stLook (stSet st node 1) node = 1 := by
            rw [stLook_stSet, if_pos rfl]
          have houtnode1 : stLook out node = 1 := (hgray node).mpr hg1
          refine ⟨?_, ?_, ?_, ?_, ?_, ?_⟩
          · -- GrayPres
            intro u
            rw [stLook_stSet]
            by_cases hun : u = node
            · rw [if_pos hun, hun]
              constructor
              · intro h; cases h
              · intro h; exact absurd h h1
            · rw [if_neg hun]
              rw [hgray u, stLook_stSet, if_neg hun]
          · -- BlackMono
            intro u hu
            have hun : ¬u = node := fun h => h2 (h ▸ hu)
            rw [stLook_stSet, if_neg hun]
            exact hblack u (by rwa [stLook_stSet, if_neg hun])
          · -- the node itself is done
            rw [stLook_stSet, if_pos rfl]
          · -- colours only change towards done
            intro u
            rw [stLook_stSet]
            by_cases hun : u = node
            · rw [if_pos hun]
              exact Or.inr rfl
            · rw [if_neg hun]
              rcases hch u with h | h
              · rw [h, stLook_stSet, if_neg hun]
                exact Or.inl rfl
              · exact Or.inr h
          · -- Inv, closure part
            intro u v hu hv
            rw [stLook_stSet] at hu ⊢
            by_cases hvn : v = node
            · rw [if_pos hvn]
            · rw [if_neg hvn]
              by_cases hun : u = node
              · exact htargets v (hun ▸ hv)
              · rw [if_neg hun] at hu
                exact hInvOut.1 u v hu hv
          · -- Inv, acyclicity part
            intro u hu
            rw [stLook_stSet] at hu
            by_cases hun : u = node
            · subst hun
              intro hcyc
              obtain ⟨w, hedge, hreach⟩ :=
                (Relation.TransGen.head'_iff).mp hcyc
              have hw2 : stLook out w = 2 := htargets w hedge
              have hnode2 : stLook out u = 2 :=
                black_reach adjF out hInvOut.1 hw2 hreach
              rw [houtnode1] at hnode2
              cases hnode2
            · rw [if_neg hun] at hu
              exact hInvOut.2 u hu
        · intro hf
          exact absurd hf (by simp)
        · intro NL hadjNL hdom
          obtain ⟨hfl, hdout⟩ := hloop2.2.2 NL hadjNL
            (fun x hx => hadjNL node x hx)
            (DomAll_stSet NL st node 1 hdom)
          exact ⟨hfl, DomAll_stSet NL out node 2 hdout⟩
      · -- the loop found a cycle
        simp only [hres]
        refine ⟨?_, ?_, ?_⟩
        · intro hf
          exact absurd hf (by simp)
        · intro _ hInv hgr
          have hInv1 : Inv adjF (stSet st node 1) :=
            Inv_stSet1 adjF st node hInv h2
          refine hloop2.2.1 rfl hInv1 node ?_ (fun x hx => hx) ?_
          · rw [stLook_stSet, if_pos rfl]
          · intro u hu
            rw [stLook_stSet] at hu
            by_cases hun : u = node
            · exact Or.inl hun
            · rw [if_neg hun] at hu
              exact Or.inr (hgr u hu)
        · intro NL hadjNL hdom
          obtain ⟨hfl, hdout⟩ := hloop2.2.2 NL hadjNL
            (fun x hx => hadjNL node x hx)
            (DomAll_stSet NL st node 1 hdom)
          exact ⟨hfl, hdout⟩

theorem dfs_spec_all (adjF : Int → List Int) (U : List Int)
    (hadj : ∀ u, ∀ x ∈ adjF u, x ∈ U) :
    ∀ st node hn, DfsSpec adjF U st node (dfs adjF U hadj st node hn) := by
  refine fun st node hn => dfs.induct adjF U hadj
    (fun st node hn => DfsSpec adjF U st node (dfs adjF U hadj st node hn))
    (fun st l hl => LoopSpec adjF U st l (dfsLoop adjF U hadj st l hl))
    ?_ ?_ ?_ ?_ ?_ ?_ ?_ ?_ ?_ st node hn
  · -- dfs: entry on a visiting node
    intro st node hn h1
    exact dfs_cases_helper adjF U hadj st node hn (fun hno _ => absurd h1 hno)
  · -- dfs: entry on a done node
    intro st node hn h1 h2
    exact dfs_cases_helper adjF U hadj st node hn (fun _ hno => absurd h2 hno)
  · -- dfs: white entry, loop finds a cycle
    intro st node hn h1 h2 f out hb heq hm2
    exact dfs_cases_helper adjF U hadj st node hn (fun _ _ => hm2)
  · -- dfs: white entry, loop completes
    intro st node hn h1 h2 f out hb heq hm2
    exact dfs_cases_helper adjF U hadj st node hn (fun _ _ => hm2)
  · -- loop: empty adjacency rest
    intro st hl hl2
    rw [dfsLoop]
    refine ⟨?_, ?_, ?_⟩
    · intro _ hInv
      exact ⟨fun u => Iff.rfl, fun u h => h,
        fun nb h => absurd h (List.not_mem_nil nb), fun u => Or.inl rfl, hInv⟩
    · intro hf
      exact absurd hf (by simp)
    · intro NL _ _ hdom
      exact ⟨rfl, hdom⟩
  · -- loop: defensive insert, then a cycle is found
    intro st nb rest hl hnone fired out1 hb1 heq hl2 ih1
    have hbridge : dfs adjF U hadj (stSet st nb 0) nb
        (hl nb (List.mem_cons_self _ _)) = ⟨true, fired, out1, hb1⟩ := heq
    rw [dfsLoop, dif_pos hnone, hbridge]
    rw [hbridge] at ih1
    have hpt : ∀ u, stLook (stSet st nb 0) u = stLook st u :=
      stLook_stSet0_absent st nb hnone
    refine ⟨?_, ?_, ?_⟩
    · intro hf
      exact absurd hf (by simp)
    · intro _ hInv node hnode hsub hgr
      refine ih1.2.1 rfl (Inv_congr adjF st (stSet st nb 0) hpt hInv) ?_
      intro u hu
      rw [hpt u] at hu
      rcases hgr u hu with h | h
      · subst h
        exact Relation.TransGen.single (hsub nb (List.mem_cons_self _ _))
      · exact Relation.TransGen.tail h (hsub nb (List.mem_cons_self _ _))
    · intro NL hadjNL hsub hdom
      have hmem := hdom nb (hsub nb (List.mem_cons_self _ _))
      rw [hnone] at hmem
      simp at hmem
  · -- loop: defensive insert, no cycle, continue with the rest
    intro st nb rest hl hnone fired out1 hb1 heq b2 fired2 out2 hb2 heq2
      hl2 ih1 ih2
    have hbridge : dfs adjF U hadj (stSet st nb 0) nb
        (hl nb (List.mem_cons_self _ _)) = ⟨false, fired, out1, hb1⟩ := heq
    have hbridge2 : dfsLoop adjF U hadj out1 rest
        (fun x hx => hl x (List.mem_cons_of_mem _ hx)) =
        ⟨b2, fired2, out2, hb2⟩ := heq2
    rw [dfsLoop, dif_pos hnone]
    simp only [hbridge]
    simp only [hbridge2]
    rw [hbridge] at ih1
    rw [hbridge2] at ih2
    have hpt : ∀ u, stLook (stSet st nb 0) u = stLook st u :=
      stLook_stSet0_absent st nb hnone
    refine ⟨?_, ?_, ?_⟩
    · intro hf hInv
      have hInv0 : Inv adjF (stSet st nb 0) := Inv_congr adjF st _ hpt hInv
      obtain ⟨hg1, hbm1, hnb2, hch1, hInvOut1⟩ := ih1.1 rfl hInv0
      obtain ⟨hg2, hbm2, htg2, hch2, hInvOut2⟩ := ih2.1 hf hInvOut1
      refine ⟨?_, ?_, ?_, ?_, hInvOut2⟩
      · intro u
        rw [hg2 u, hg1 u, hpt u]
      · intro u hu
        exact hbm2 u (hbm1 u (by rwa [hpt u]))
      · intro x hx
        rcases List.mem_cons.mp hx with h | h
        · subst h
          exact hbm2 x hnb2
        · exact htg2 x h
      · intro u
        rcases hch2 u with h | h
        · rcases hch1 u with h' | h'
          · rw [h, h', hpt u]
            exact Or.inl rfl
          · rw [h, h']
            exact Or.inr rfl
        · exact Or.inr h
    · intro hf hInv node hnode hsub hgr
      have hInv0 : Inv adjF (stSet st nb 0) := Inv_congr adjF st _ hpt hInv
      obtain ⟨hg1, hbm1, hnb2, hch1, hInvOut1⟩ := ih1.1 rfl hInv0
      refine ih2.2.1 hf hInvOut1 node ?_
        (fun x hx => hsub x (List.mem_cons_of_mem _ hx)) ?_
      · rw [hg1 node, hpt node]
        exact hnode
      · intro u hu
        rw [hg1 u, hpt u] at hu
        exact hgr u hu
    · intro NL hadjNL hsub hdom
      have hmem := hdom nb (hsub nb (List.mem_cons_self _ _))
      rw [hnone] at hmem
      simp at hmem
  · -- loop: neighbour present, cycle found
    intro st nb rest hl hnone f1 out1 hb1 heq hl2 ih1
    have hbridge : dfs adjF U hadj st nb (hl nb (List.mem_cons_self _ _)) =
        ⟨true, f1, out1, hb1⟩ := heq
    rw [dfsLoop, dif_neg hnone, hbridge]
    rw [hbridge] at ih1
    refine ⟨?_, ?_, ?_⟩
    · intro hf
      exact absurd hf (by simp)
    · intro _ hInv node hnode hsub hgr
      refine ih1.2.1 rfl hInv ?_
      intro u hu
      rcases hgr u hu with h | h
      · subst h
        exact Relation.TransGen.single (hsub nb (List.mem_cons_self _ _))
      · exact Relation.TransGen.tail h (hsub nb (List.mem_cons_self _ _))
    · intro NL hadjNL hsub hdom
      obtain ⟨hf1, hdom1⟩ := ih1.2.2 NL hadjNL hdom
      exact ⟨hf1, hdom1⟩
  · -- loop: neighbour present, no cycle, continue with the rest
    intro st nb rest hl hnone f1 out1 hb1 heq b2 f2 out2 hb2 heq2 hl2 ih1 ih2
    have hbridge : dfs adjF U hadj st nb (hl nb (List.mem_cons_self _ _)) =
        ⟨false, f1, out1, hb1⟩ := heq
    have hbridge2 : dfsLoop adjF U hadj out1 rest
        (fun x hx => hl x (List.mem_cons_of_mem _ hx)) =
        ⟨b2, f2, out2, hb2⟩ := heq2
    rw [dfsLoop, dif_neg hnone]
    simp only [hbridge]
    simp only [hbridge2]
    rw [hbridge] at ih1
    rw [hbridge2] at ih2
    refine ⟨?_, ?_, ?_⟩
    · intro hf hInv
      obtain ⟨hg1, hbm1, hnb2, hch1, hInvOut1⟩ := ih1.1 rfl hInv
      obtain ⟨hg2, hbm2, htg2, hch2, hInvOut2⟩ := ih2.1 hf hInvOut1
      refine ⟨?_, ?_, ?_, ?_, hInvOut2⟩
      · intro u
        rw [hg2 u, hg1 u]
      · intro u hu
        exact hbm2 u (hbm1 u hu)
      · intro x hx
        rcases List.mem_cons.mp hx with h | h
        · subst h
          exact hbm2 x hnb2
        · exact htg2 x h
      · intro u
        rcases hch2 u with h | h
        · rcases hch1 u with h' | h'
          · rw [h, h']
            exact Or.inl rfl
          · rw [h, h']
            exact Or.inr rfl
        · exact Or.inr h
    · intro hf hInv node hnode hsub hgr
      obtain ⟨hg1, hbm1, hnb2, hch1, hInvOut1⟩ := ih1.1 rfl hInv
      refine ih2.2.1 hf hInvOut1 node ?_
        (fun x hx => hsub x (List.mem_cons_of_mem _ hx)) ?_
      · rw [hg1 node]
        exact hnode
      · intro u hu
        rw [hg1 u] at hu
        exact hgr u hu
    · intro NL hadjNL hsub hdom
      obtain ⟨hf1, hdom1⟩ := ih1.2.2 NL hadjNL hdom
      obtain ⟨hf2, hdom2⟩ := ih2.2.2 NL hadjNL
        (fun x hx => hsub x (List.mem_cons_of_mem _ hx)) hdom1
      refine ⟨?_, hdom2⟩
      have h1f : f1 = false := hf1
      have h2f : f2 = false := hf2
      show (f1 || f2) = false
      subst h1f
      subst h2f
      rfl

/-! ### Top-level `is_dag` loop: soundness, completeness, and the flag -/

theorem isDagCore_false_cycle (adjF : Int → List Int) (U : List Int)
    (hadj : ∀ u, ∀ x ∈ adjF u, x ∈ U) :
    ∀ (roots : List Int) (st : St) (hr : ∀ r ∈ roots, r ∈ U),
    (isDagCore adjF U hadj st roots hr).1 = false → Inv adjF st →
    (∀ u, ¬stLook st u = 1) →
    ∃ w, Relation.TransGen (fun a b => b ∈ adjF a) w w := by
  intro roots
  induction roots with
  | nil =>
    intro st hr hfalse _ _
    rw [isDagCore] at hfalse
    cases hfalse
  | cons r rest ih =>
    intro st hr hfalse hInv hnog
    rw [isDagCore] at hfalse
    by_cases hz : stLook st r = 0
    · rw [if_pos hz] at hfalse
      rcases hres : dfs adjF U hadj st r (hr r (List.mem_cons_self _ _)) with
        ⟨(_|_), f, out, hb⟩
      · -- DFS completed without a cycle: recurse on the remaining roots
        rw [hres] at hfalse
        have hspec := dfs_spec_all adjF U hadj st r
          (hr r (List.mem_cons_self _ _))
        rw [hres] at hspec
        obtain ⟨hg, _, _, _, hInv'⟩ := hspec.1 rfl hInv
        refine ih out (fun x hx => hr x (List.mem_cons_of_mem _ hx)) ?_ hInv' ?_
        · exact hfalse
        · intro u hu
          exact hnog u ((hg u).mp hu)
      · -- DFS found a cycle
        have hspec := dfs_spec_all adjF U hadj st r
          (hr r (List.mem_cons_self _ _))
        rw [hres] at hspec
        exact hspec.2.1 rfl hInv (fun u hu => absurd hu (hnog u))
    · rw [if_neg hz] at hfalse
      exact ih st (fun x hx => hr x (List.mem_cons_of_mem _ hx)) hfalse hInv hnog

theorem isDagCore_true_no_cycle (adjF : Int → List Int) (U : List Int)
    (hadj : ∀ u, ∀ x ∈ adjF u, x ∈ U) :
    ∀ (roots : List Int) (st : St) (hr : ∀ r ∈ roots, r ∈ U),
    (isDagCore adjF U hadj st roots hr).1 = true → Inv adjF st →
    (∀ u, ¬stLook st u = 1) →
    ∀ v, ((v ∈ roots ∧ stLook st v = 0) ∨ stLook st v = 2) →
    ¬ Relation.TransGen (fun a b => b ∈ adjF a) v v := by
  intro roots
  induction roots with
  | nil =>
    intro st hr _ hInv _ v hv
    rcases hv with ⟨hv, _⟩ | hv
    · cases hv
    · exact hInv.2 v hv
  | cons r rest ih =>
    intro st hr htrue hInv hnog v hv
    rw [isDagCore] at htrue
    by_cases hz : stLook st r = 0
    · rw [if_pos hz] at htrue
      rcases hres : dfs adjF U hadj st r (hr r (List.mem_cons_self _ _)) with
        ⟨(_|_), f, out, hb⟩
      · rw [hres] at htrue
        have hspec := dfs_spec_all adjF U hadj st r
          (hr r (List.mem_cons_self _ _))
        rw [hres] at hspec
        obtain ⟨hg, hbm, hrdone, hch, hInv'⟩ := hspec.1 rfl hInv
        refine ih out (fun x hx => hr x (List.mem_cons_of_mem _ hx)) htrue
          hInv' (fun u hu => hnog u ((hg u).mp hu)) v ?_
        rcases hv with ⟨hmem, hv0⟩ | hv2
        · rcases List.mem_cons.mp hmem with h | h
          · exact Or.inr (h ▸ hrdone)
          · rcases hch v with hc | hc
            · exact Or.inl ⟨h, hc.trans hv0⟩
            · exact Or.inr hc
        · exact Or.inr (hbm v hv2)
      · rw [hres] at htrue
        cases htrue
    · rw [if_neg hz] at htrue
      refine ih st (fun x hx => hr x (List.mem_cons_of_mem _ hx)) htrue hInv
        hnog v ?_
      rcases hv with ⟨hmem, hv0⟩ | hv2
      · rcases List.mem_cons.mp hmem with h | h
        · exact absurd (h ▸ hv0) hz
        · exact Or.inl ⟨h, hv0⟩
      · exact Or.inr hv2

theorem isDagCore_fired_false (adjF : Int → List Int) (U : List Int)
    (hadj : ∀ u, ∀ x ∈ adjF u, x ∈ U) :
    ∀ (roots : List Int) (st : St) (hr : ∀ r ∈ roots, r ∈ U)
    (NL : List Int), (∀ u, ∀ x ∈ adjF u, x ∈ NL) → DomAll NL st →
    (isDagCore adjF U hadj st roots hr).2 = false := by
  intro roots
  induction roots with
  | nil =>
    intro st hr NL _ _
    rfl
  | cons r rest ih =>
    intro st hr NL hadjNL hdom
    rw [isDagCore]
    by_cases hz : stLook st r = 0
    · rw [if_pos hz]
      rcases hres : dfs adjF U hadj st r (hr r (List.mem_cons_self _ _)) with
        ⟨(_|_), f, out, hb⟩
      · have hspec := dfs_spec_all adjF U hadj st r
          (hr r (List.mem_cons_self _ _))
        rw [hres] at hspec
        obtain ⟨hf, hdout⟩ := hspec.2.2 NL hadjNL hdom
        have hf' : f = false := hf
        have hrest := ih out (fun x hx => hr x (List.mem_cons_of_mem _ hx))
          NL hadjNL hdout
        show (f || (isDagCore adjF U hadj out rest
          (fun x hx => hr x (List.mem_cons_of_mem _ hx))).2) = false
        rw [hf', hrest]
        rfl
      · have hspec := dfs_spec_all adjF U hadj st r
          (hr r (List.mem_cons_self _ _))
        rw [hres] at hspec
        obtain ⟨hf, _⟩ := hspec.2.2 NL hadjNL hdom
        exact hf
    · rw [if_neg hz]
      exact ih st (fun x hx => hr x (List.mem_cons_of_mem _ hx)) NL hadjNL hdom

theorem stLook_map_zero (ns : List Int) (u : Int) :
    stLook (ns.map (fun v => (v, 0))) u = 0 := by
  induction ns with
  | nil => rfl
  | cons x xs ih =>
    simp only [List.map_cons, stLook, lookA]
    by_cases h : x = u
    · simp [h]
    · simp only [if_neg h]
      exact ih

theorem stLook_initSt (g : Graph) (u : Int) : stLook (initSt g) u = 0 :=
  stLook_map_zero g.nodes u

theorem lookA_map_zero_isSome (ns : List Int) (u : Int) (h : u ∈ ns) :
    (lookA (ns.map (fun v => (v, 0))) u).isSome = true := by
  induction ns with
  | nil => cases h
  | cons x xs ih =>
    simp only [List.map_cons, lookA]
    by_cases hx : x = u
    · simp [hx]
    · rw [if_neg hx]
      rcases List.mem_cons.mp h with h1 | h1
    <;> [exact absurd h1.symm hx; exact ih h1]

theorem DomAll_initSt (g : Graph) : DomAll g.nodes (initSt g) :=
  fun u hu => lookA_map_zero_isSome g.nodes u hu

theorem Inv_initSt (adjF : Int → List Int) (g : Graph) :
    Inv adjF (initSt g) := by
  constructor
  · intro u v hu _
    rw [stLook_initSt] at hu
    cases hu
  · intro u hu
    rw [stLook_initSt] at hu
    cases hu

theorem noGray_initSt (g : Graph) : ∀ u, ¬stLook (initSt g) u = 1 := by
  intro u h
  rw [stLook_initSt] at h
  cases h

theorem mem_keys_of_edge (g : Graph) (v w : Int) (h : w ∈ adjListD g v) :
    v ∈ keysOf g := by
  unfold adjListD at h
  cases hl : lookA g.adjacency v with
  | none => rw [hl] at h; cases h
  | some l =>
    have := lookA_mem _ _ _ hl
    exact List.mem_map_of_mem Prod.fst this

theorem isDagCore_congr (a1 a2 : Int → List Int) (U1 U2 : List Int)
    (h1 : ∀ u, ∀ x ∈ a1 u, x ∈ U1) (h2 : ∀ u, ∀ x ∈ a2 u, x ∈ U2)
    (st1 st2 : St) (roots1 roots2 : List Int)
    (hr1 : ∀ r ∈ roots1, r ∈ U1) (hr2 : ∀ r ∈ roots2, r ∈ U2)
    (ea : a1 = a2) (eU : U1 = U2) (est : st1 = st2) (er : roots1 = roots2) :
    isDagCore a1 U1 h1 st1 roots1 hr1 = isDagCore a2 U2 h2 st2 roots2 hr2 := by
  subst ea; subst eU; subst est; subst er
  rfl

theorem is_dag_touch (g : Graph) (u : Int) :
    is_dag (touch g u) = is_dag g := by
  have hn : (touch g u).nodes = g.nodes := touch_nodes g u
  have ha : adjListD (touch g u) = adjListD g := funext (adjListD_touch g u)
  have hU : Ug (touch g u) = Ug g := by
    unfold Ug
    rw [hn]
    congr 1
    unfold touch
    by_cases h : lookA g.adjacency u = none
    · rw [if_pos h]
      show ((g.adjacency ++ [(u, [])]).map Prod.snd).flatten =
        (g.adjacency.map Prod.snd).flatten
      simp
    · rw [if_neg h]
  have hinit : initSt (touch g u) = initSt g := by
    unfold initSt
    rw [hn]
  exact congrArg Prod.fst
    (isDagCore_congr _ _ _ _ _ _ _ _ _ _ _ _ ha hU hinit hn)

theorem adjListD_mono_add_edge (g : Graph) (a b u x : Int)
    (h : x ∈ adjListD g u) : x ∈ adjListD (add_edge g a b) u := by
  rw [adjListD_add_edge]
  by_cases hu : u = a
  · rw [if_pos hu]
    exact List.mem_append_left _ (hu ▸ h)
  · rwa [if_neg hu]

theorem mem_adjListD_foldl (es : List (Int × Int)) :
    ∀ (g : Graph) (u x : Int), x ∈ adjListD g u →
    x ∈ adjListD (es.foldl (fun g e => add_edge g e.1 e.2) g) u := by
  induction es with
  | nil => intro g u x h; exact h
  | cons e rest ih =>
    intro g u x h
    exact ih _ u x (adjListD_mono_add_edge g e.1 e.2 u x h)

theorem mem_adjListD_foldl_pair (s t : Int) :
    ∀ (es : List (Int × Int)) (g : Graph), (s, t) ∈ es →
    t ∈ adjListD (es.foldl (fun g e => add_edge g e.1 e.2) g) s := by
  intro es
  induction es with
  | nil => intro g hg; cases hg
  | cons e rest ih =>
    intro g hg
    rcases List.mem_cons.mp hg with h1 | h1
    · have hmem : t ∈ adjListD (add_edge g e.1 e.2) s := by
        have he1 : e.1 = s := congrArg Prod.fst h1.symm
        have he2 : e.2 = t := congrArg Prod.snd h1.symm
        rw [adjListD_add_edge, he1, if_pos rfl, he2]
        exact List.mem_append_right _ (List.mem_singleton.mpr rfl)
      exact mem_adjListD_foldl rest _ s t hmem
    · exact ih (add_edge g e.1 e.2) h1

theorem mem_adjListD_buildGraph (es : List (Int × Int)) (s t : Int)
    (h : (s, t) ∈ es) : t ∈ adjListD (buildGraph es) s :=
  mem_adjListD_foldl_pair s t es Graph.empty h

/-- The DFS verdict, for any root iteration order covering every node
with outgoing edges, decides exactly acyclicity. -/
theorem is_dag_roots_iff_acyclic (es : List (Int × Int)) (roots : List Int)
    (hr : ∀ r ∈ roots, r ∈ Ug (buildGraph es))
    (hkeys : ∀ u ∈ keysOf (buildGraph es), u ∈ roots) :
    (is_dag_roots (buildGraph es) roots hr = true ↔
      ∀ v, ¬ Relation.TransGen
        (fun a b => b ∈ adjListD (buildGraph es) a) v v) := by
  constructor
  · intro htrue v hcyc
    obtain ⟨w, hw, _⟩ := (Relation.TransGen.head'_iff).mp hcyc
    have hkv : v ∈ keysOf (buildGraph es) := mem_keys_of_edge _ v w hw
    exact isDagCore_true_no_cycle (adjListD (buildGraph es))
      (Ug (buildGraph es)) (adjListD_sub_Ug _) roots (initSt _) hr htrue
      (Inv_initSt _ _) (noGray_initSt _) v
      (Or.inl ⟨hkeys v hkv, stLook_initSt _ v⟩) hcyc
  · intro hacyc
    cases hval : is_dag_roots (buildGraph es) roots hr
    · obtain ⟨w, hcyc⟩ := isDagCore_false_cycle (adjListD (buildGraph es))
        (Ug (buildGraph es)) (adjListD_sub_Ug _) roots (initSt _) hr hval
        (Inv_initSt _ _) (noGray_initSt _)
      exact absurd hcyc (hacyc w)
    · rfl

/-- Claim C3: `is_dag` is true exactly when the built multigraph has no
directed cycle; the empty graph is a DAG, and a self-loop forces `false`. -/
theorem C3_is_dag_iff_no_cycle (es : List (Int × Int)) :
    (is_dag (buildGraph es) = true ↔
      ∀ v, ¬ Relation.TransGen
        (fun a b => b ∈ adjListD (buildGraph es) a) v v) ∧
    is_dag (buildGraph []) = true ∧
    (∀ v : Int, (v, v) ∈ es → is_dag (buildGraph es) = false) := by
  have hmain := is_dag_roots_iff_acyclic es (buildGraph es).nodes
    (nodes_sub_Ug _) (fun u hu => (WF_buildGraph es).keys_sub u hu)
  refine ⟨hmain, rfl, ?_⟩
  intro v hv
  have hedge : v ∈ adjListD (buildGraph es) v :=
    mem_adjListD_buildGraph es v v hv
  have hcyc : Relation.TransGen
      (fun a b => b ∈ adjListD (buildGraph es) a) v v :=
    Relation.TransGen.single hedge
  cases hval : is_dag (buildGraph es)
  · rfl
  · exact absurd hcyc (hmain.mp hval v)

/-- Witness for C3 at a concrete input: a self-loop yields `false`. -/
theorem C3_witness : is_dag (buildGraph [((1:Int), (1:Int))]) = false :=
  (C3_is_dag_iff_no_cycle [((1:Int), (1:Int))]).2.2 1 (by decide)

theorem perm_sub_Ug (es : List (Int × Int)) (roots : List Int)
    (h : roots.Perm (buildGraph es).nodes) :
    ∀ r ∈ roots, r ∈ Ug (buildGraph es) :=
  fun r hr => nodes_sub_Ug _ r (h.mem_iff.mp hr)

/-- Claim C9: the acyclicity verdict does not depend on the order in
which the root nodes are iterated. -/
theorem C9_verdict_order_independent (es : List (Int × Int))
    (roots1 roots2 : List Int) (h1 : roots1.Perm (buildGraph es).nodes)
    (h2 : roots2.Perm (buildGraph es).nodes) :
    is_dag_roots (buildGraph es) roots1 (perm_sub_Ug es roots1 h1) =
      is_dag_roots (buildGraph es) roots2 (perm_sub_Ug es roots2 h2) := by
  have i1 := is_dag_roots_iff_acyclic es roots1 (perm_sub_Ug es roots1 h1)
    (fun u hu => h1.mem_iff.mpr ((WF_buildGraph es).keys_sub u hu))
  have i2 := is_dag_roots_iff_acyclic es roots2 (perm_sub_Ug es roots2 h2)
    (fun u hu => h2.mem_iff.mpr ((WF_buildGraph es).keys_sub u hu))
  cases hv1 : is_dag_roots (buildGraph es) roots1 (perm_sub_Ug es roots1 h1) <;>
    cases hv2 : is_dag_roots (buildGraph es) roots2 (perm_sub_Ug es roots2 h2)
  · rfl
  · have := i1.mpr (i2.mp hv2)
    rw [hv1] at this
    cases this
  · have := i2.mpr (i1.mp hv1)
    rw [hv2] at this
    cases this
  · rfl

theorem C9_perm_a : List.Perm [(1:Int), 2]
    (buildGraph [((1:Int), (2:Int)), (2, 1)]).nodes := by decide

theorem C9_perm_b : List.Perm [(2:Int), 1]
    (buildGraph [((1:Int), (2:Int)), (2, 1)]).nodes := by decide

/-- Witness for C9 at a concrete input: two opposite root orders. -/
theorem C9_witness :
    is_dag_roots (buildGraph [((1:Int), (2:Int)), (2, 1)]) [1, 2]
      (perm_sub_Ug _ _ C9_perm_a) =
    is_dag_roots (buildGraph [((1:Int), (2:Int)), (2, 1)]) [2, 1]
      (perm_sub_Ug _ _ C9_perm_b) :=
  C9_verdict_order_independent [((1:Int), (2:Int)), (2, 1)] [1, 2] [2, 1]
    C9_perm_a C9_perm_b

/-- Claim C10: on every graph built through `add_edge`, the defensive
`neighbor not in state` branch of the DFS never executes (every
adjacency target is registered in the node set, which seeds the state
dict). -/
theorem C10_defensive_branch_dead (es : List (Int × Int)) :
    is_dag_fired (buildGraph es) = false :=
  isDagCore_fired_false (adjListD (buildGraph es)) (Ug (buildGraph es))
    (adjListD_sub_Ug _) (buildGraph es).nodes (initSt _) (nodes_sub_Ug _)
    (buildGraph es).nodes
    (fun u x hx => (WF_buildGraph es).targets_sub u x hx)
    (DomAll_initSt _)

/-- Claim C2, amended: a query never changes the node set, never changes
any stored adjacency sequence, and never changes the observable
adjacency view (so all degree values and both analyzers' outputs are
unaffected); the queries that read `self.adjacency[node]` may extend the
mapping with an empty-sequence entry for an absent key (defaultdict
auto-creation on read), which is the only state effect any query has. -/
theorem C2_amended_queries_preserve_observables (g : Graph) (u v : Int)
    (d : ℚ) (it : Nat) :
    ((get_out_degree_st g u).2.nodes = g.nodes ∧
      (∀ w, adjListD (get_out_degree_st g u).2 w = adjListD g w)) ∧
    ((get_adjacency_list_st g u).2.nodes = g.nodes ∧
      (∀ w, adjListD (get_adjacency_list_st g u).2 w = adjListD g w)) ∧
    (get_in_degree_st g v).2 = g ∧
    (get_max_in_degree_st g).2 = g ∧
    ((get_max_out_degree_st g).2.nodes = g.nodes ∧
      (∀ w, adjListD (get_max_out_degree_st g).2 w = adjListD g w) ∧
      (get_max_out_degree_st g).1 = get_max_out_degree g) ∧
    is_dag (touch g u) = is_dag g ∧
    compute_pagerank (touch g u) d it = compute_pagerank g d it := by
  obtain ⟨hval, hnodes, hadj⟩ := out_degrees_st_spec g.nodes g
  refine ⟨⟨touch_nodes g u, adjListD_touch g u⟩,
    ⟨touch_nodes g u, adjListD_touch g u⟩, rfl, rfl, ⟨?_, ?_, ?_⟩,
    is_dag_touch g u, compute_pagerank_touch g u d it⟩
  · unfold get_max_out_degree_st
    by_cases hn : g.nodes = []
    · rw [if_pos hn]
    · rw [if_neg hn]
      exact hnodes
  · intro w
    unfold get_max_out_degree_st
    by_cases hn : g.nodes = []
    · rw [if_pos hn]
    · rw [if_neg hn]
      exact hadj w
  · unfold get_max_out_degree_st get_max_out_degree
    by_cases hn : g.nodes = []
    · rw [if_pos hn, if_pos hn]
    · rw [if_neg hn, if_neg hn]
      show pyMax 0 (out_degrees_st g g.nodes).1 = _
      rw [hval]
